import Mathlib

/-!
Shallow embedding of the Schedule Index / realtime-fact core of
PolishTrainsGTFS (`polish_trains_gtfs/realtime/`), together with proofs of
the specification's claims about it.

Calendar dates are modelled as day numbers (`Int`), related to civil
year/month/day via the standard proleptic-Gregorian conversion
(`daysFromCivil` / `civilFromDays`).  `Date.add_days` is then integer
addition, and `impuls.BoundedDateRange` membership is an interval check.
Python `dict`s are modelled as insertion-ordered association lists
(`dget` / `dset` / `dinsert` / `dappend` below), mirroring CPython
semantics: lookup finds the (unique) entry, overwriting keeps the entry's
position, a fresh key is appended at the end.
-/

namespace PolishTrainsGTFS

/-- Calendar date as a proleptic-Gregorian day number. -/
abbrev Date := Int

/-- Day number from a civil (year, month, day) triple; standard algorithm,
epoch 1970-01-01 = 0. -/
def daysFromCivil (y m d : Int) : Int :=
  let y' := if m ≤ 2 then y - 1 else y
  let era := (if 0 ≤ y' then y' else y' - 399) / 400
  let yoe := y' - era * 400
  let mp := (m + 9) % 12
  let doy := (153 * mp + 2) / 5 + d - 1
  let doe := yoe * 365 + yoe / 4 - yoe / 100 + doy
  era * 146097 + doe - 719468

/-- Civil (year, month, day) triple from a day number; inverse of
`daysFromCivil`. -/
def civilFromDays (z0 : Int) : Int × Int × Int :=
  let z := z0 + 719468
  let era := (if 0 ≤ z then z else z - 146096) / 146097
  let doe := z - era * 146097
  let yoe := (doe - doe / 1460 + doe / 36524 - doe / 146096) / 365
  let y := yoe + era * 400
  let doy := doe - (365 * yoe + yoe / 4 - yoe / 100)
  let mp := (5 * doy + 2) / 153
  let d := doy - (153 * mp + 2) / 5 + 1
  let m := mp + (if mp < 10 then 3 else -9)
  (if m ≤ 2 then y + 1 else y, m, d)

/-- Left-pad the decimal form of a nonnegative integer to two digits. -/
def pad2 (n : Int) : String := if n < 10 then "0" ++ toString n else toString n

/-- Left-pad the decimal form of a nonnegative integer to four digits. -/
def pad4 (n : Int) : String :=
  if n < 10 then "000" ++ toString n
  else if n < 100 then "00" ++ toString n
  else if n < 1000 then "0" ++ toString n
  else toString n

/-- `date.isoformat()`: `YYYY-MM-DD` rendering of a day number. -/
def isoformat (dt : Date) : String :=
  let c := civilFromDays dt
  pad4 c.1 ++ "-" ++ pad2 c.2.1 ++ "-" ++ pad2 c.2.2

/-- `impuls.tools.temporal.BoundedDateRange`: an inclusive calendar-date
interval. -/
structure BoundedDateRange where
  start : Date
  end_ : Date
deriving DecidableEq, Repr

/-- Membership test of `BoundedDateRange` (`operating_date in range`). -/
def BoundedDateRange.contains (r : BoundedDateRange) (d : Date) : Bool :=
  decide (r.start ≤ d) && decide (d ≤ r.end_)

/-- `tools.TripDate`: `(trip_id, start_date)`.  The `trip_id` is kept in its
textual form (Python stores either the GTFS string or an `int` that is only
ever rendered via an f-string). -/
structure TripDate where
  trip_id : String
  start_date : Date
deriving DecidableEq, Repr

/-- `schedules.OrderKey`: `(schedule_id, order_id, operating_date)`, the live
feed's journey identity. -/
structure OrderKey where
  schedule_id : Int
  order_id : Int
  operating_date : Date
deriving DecidableEq, Repr

/-- `schedules.StopTime`: one stop visit of a trip occurrence. -/
structure StopTime where
  trip : TripDate
  stop_sequence : Int
  stop_id : String
deriving DecidableEq, Repr

/-- `schedules.Trips`: aggregate attached to one `OrderKey`. -/
structure Trips where
  all : List TripDate
  by_order_number : List (Int × StopTime)
deriving DecidableEq, Repr

/-- `schedules.DatePair`: `(operating_date, start_date)`. -/
structure DatePair where
  operating_date : Date
  start_date : Date
deriving DecidableEq, Repr

/-- `schedules.TripKeyPair`: `(gtfs: TripDate, live: OrderKey)`. -/
structure TripKeyPair where
  gtfs : TripDate
  live : OrderKey
deriving DecidableEq, Repr

/-- `schedules.Schedules`: the built Schedule Index. -/
structure Schedules where
  by_order : List (OrderKey × Trips)
  valid_operating_dates : BoundedDateRange
deriving DecidableEq, Repr

section Dict

variable {κ α : Type} [DecidableEq κ]

/-- `dict.get`: value of the first (and, by the no-duplicate invariant kept by
`dinsert`, only) entry with this key. -/
def dget (m : List (κ × α)) (k : κ) : Option α :=
  (m.find? (fun p => p.1 = k)).map (·.2)

/-- `dict.__setitem__` on a key known present: overwrite in place. -/
def dset (m : List (κ × α)) (k : κ) (v : α) : List (κ × α) :=
  m.map (fun p => if p.1 = k then (k, v) else p)

/-- `dict.__setitem__`: overwrite in place when present, append when fresh. -/
def dinsert (m : List (κ × α)) (k : κ) (v : α) : List (κ × α) :=
  if (m.find? (fun p => p.1 = k)).isSome then dset m k v else m ++ [(k, v)]

/-- `dict.setdefault(k, []).append(v)`: append `v` to the list at `k`,
creating a singleton entry at the end when the key is fresh. -/
def dappend (m : List (κ × List α)) (k : κ) (v : α) : List (κ × List α) :=
  if (m.find? (fun p => p.1 = k)).isSome then
    m.map (fun p => if p.1 = k then (p.1, p.2 ++ [v]) else p)
  else m ++ [(k, [v])]

/-- Mutation of the value stored under a key (`by_order[key].by_order_number[n] = ...`):
the entry's value is replaced in place.  In `_load_stop_times` the key is
always present (every key in `trip_id_to_keys` was inserted into `by_order`
by `_load_trips`), so the absent case never fires there. -/
def dmodify (m : List (κ × α)) (k : κ) (f : α → α) : List (κ × α) :=
  m.map (fun p => if p.1 = k then (p.1, f p.2) else p)

end Dict

/-- Trailing part of `re.search(r"([+-][0-9]+)D$", ...)` applied past the
final `D`: `rest` is the rest of the identifier, reversed.  Captures the
(reversed, least-significant-first) maximal digit run when a sign precedes
it. -/
def extractOffsetAux (rest : List Char) : Int :=
  let ds := rest.takeWhile Char.isDigit
  if ds.isEmpty then 0
  else
    match rest.dropWhile Char.isDigit with
    | '+' :: _ => Int.ofNat (Nat.ofDigits 10 (ds.map (fun c => c.toNat - '0'.toNat)))
    | '-' :: _ => -Int.ofNat (Nat.ofDigits 10 (ds.map (fun c => c.toNat - '0'.toNat)))
    | _ => 0

/-- `schedules._extract_start_date_offset`: value of `re.search(r"([+-][0-9]+)D$", service_id)`,
0 when there is no match.  The regex matches iff the identifier ends in a
sign, a nonempty digit run, and `D`; the captured integer is the signed
trailing digit run. -/
def _extract_start_date_offset (service_id : String) : Int :=
  match service_id.toList.reverse with
  | 'D' :: rest => extractOffsetAux rest
  | _ => 0

/-- Decimal value of a (most-significant-first) digit-character run. -/
def natOfDigits (ds : List Char) : Nat :=
  ds.foldl (fun a c => a * 10 + (c.toNat - '0'.toNat)) 0

/-- Second half of `re.search(r"^([0-9]+)_([0-9]+)", ...)`: `d1` is the first
captured digit run, `tail` what follows it; succeeds when `tail` starts with
an underscore followed by at least one digit. -/
def extractOrderAux (d1 tail : List Char) : Option (Int × Int) :=
  match tail with
  | '_' :: rest2 =>
    let d2 := rest2.takeWhile Char.isDigit
    if d2.isEmpty then none
    else some (Int.ofNat (natOfDigits d1), Int.ofNat (natOfDigits d2))
  | _ => none

/-- `schedules._extract_schedule_order_ids`: value of
`re.search(r"^([0-9]+)_([0-9]+)", trip_id)` — the two leading digit runs
around the first underscore, `none` when the identifier does not start with
`<digits>_<digits>`. -/
def _extract_schedule_order_ids (trip_id : String) : Option (Int × Int) :=
  let cs := trip_id.toList
  let d1 := cs.takeWhile Char.isDigit
  if d1.isEmpty then none
  else extractOrderAux d1 (cs.dropWhile Char.isDigit)

/-- Row of `feed_info.txt` (the two columns the builder reads, dates already
parsed; `Date.from_ymd_str` failures are `LoadError`s outside this model). -/
structure FeedInfoRow where
  feed_start_date : Date
  feed_end_date : Date
deriving DecidableEq, Repr

/-- Row of `calendar_dates.txt` (the columns the builder reads). -/
structure CalendarDateRow where
  service_id : String
  date : Date
deriving DecidableEq, Repr

/-- Row of `trips.txt` (the columns the builder reads). -/
structure TripRow where
  trip_id : String
  service_id : String
deriving DecidableEq, Repr

/-- Row of `stop_times.txt` (the columns the builder reads). -/
structure StopTimeRow where
  trip_id : String
  stop_sequence : Int
  stop_id : String
  plk_order : Int
deriving DecidableEq, Repr

/-- `schedules._load_feed_dates`: admissible operating-date range — one day
before the declared first day, through the declared last day. -/
def _load_feed_dates (row : FeedInfoRow) : BoundedDateRange :=
  ⟨row.feed_start_date + (-1), row.feed_end_date⟩

/-- Body of the `for row in csv.DictReader(f)` loop of `_load_services`. -/
def _load_services_row (range : BoundedDateRange)
    (services : List (String × List DatePair)) (row : CalendarDateRow) :
    List (String × List DatePair) :=
  let start_date_offset := _extract_start_date_offset row.service_id
  let start_date := row.date
  let operating_date := start_date + (-start_date_offset)
  if range.contains operating_date then
    dappend services row.service_id ⟨operating_date, start_date⟩
  else services

/-- `schedules._load_services`: per service identifier, the ordered list of
`(operating_date, start_date)` pairs whose operating date falls in the
admissible range. -/
def _load_services (rows : List CalendarDateRow) (range : BoundedDateRange) :
    List (String × List DatePair) :=
  rows.foldl (_load_services_row range) []

/-- State threaded through `_load_trips`: `(by_order, trip_id_to_keys)`. -/
abbrev TripsState := List (OrderKey × Trips) × List (String × List TripKeyPair)

/-- Body of the inner `for operating_date, start_date in services.get(...)`
loop of `_load_trips`, for one `DatePair`. -/
def _load_trips_pair (trip_id : String) (schedule_id order_id : Int)
    (st : TripsState) (pair : DatePair) : TripsState :=
  let key : OrderKey := ⟨schedule_id, order_id, pair.operating_date⟩
  let trip_date : TripDate := ⟨trip_id, pair.start_date⟩
  let trip_id_to_keys := dappend st.2 trip_id ⟨trip_date, key⟩
  let by_order :=
    match dget st.1 key with
    | some t => dset st.1 key { t with all := t.all ++ [trip_date] }
    | none => st.1 ++ [(key, ⟨[trip_date], []⟩)]
  (by_order, trip_id_to_keys)

/-- `schedules._load_trips`: builds `by_order` and the reverse index
`trip_id_to_keys`; raises (`Except.error`) when a trip identifier does not
start with `<digits>_<digits>`. -/
def _load_trips (rows : List TripRow)
    (services : List (String × List DatePair)) : Except String TripsState :=
  go rows ([], [])
where
  /-- Loop of `_load_trips`, carrying the accumulated state. -/
  go : List TripRow → TripsState → Except String TripsState
  | [], st => .ok st
  | row :: rest, st =>
    match _extract_schedule_order_ids row.trip_id with
    | none =>
      .error ("failed to extract schedule & order ids from trip_id " ++ row.trip_id)
    | some (schedule_id, order_id) =>
      let pairs := (dget services row.service_id).getD []
      go rest (pairs.foldl (_load_trips_pair row.trip_id schedule_id order_id) st)

/-- Body of the inner loop of `_load_stop_times`, for one
`(trip_date, key)` pair of one stop-time row. -/
def _load_stop_times_pair (row : StopTimeRow) (by_order : List (OrderKey × Trips))
    (p : TripKeyPair) : List (OrderKey × Trips) :=
  let stop_time : StopTime := ⟨p.gtfs, row.stop_sequence, row.stop_id⟩
  dmodify by_order p.live
    (fun t => { t with by_order_number := dinsert t.by_order_number row.plk_order stop_time })

/-- `schedules._load_stop_times`: registers every stop-time row under every
`(TripDate, OrderKey)` pair its trip identifier resolves to; rows whose trip
identifier has no reverse-index entry are skipped.  Total — no error case. -/
def _load_stop_times (rows : List StopTimeRow) (by_order : List (OrderKey × Trips))
    (trip_id_to_keys : List (String × List TripKeyPair)) : List (OrderKey × Trips) :=
  match rows with
  | [] => by_order
  | row :: rest =>
    let pairs := (dget trip_id_to_keys row.trip_id).getD []
    _load_stop_times rest (pairs.foldl (_load_stop_times_pair row) by_order) trip_id_to_keys

/-- `Schedules.load_from_gtfs`: the four passes over the archive's tables.
Archive access and CSV parsing are the external collaborators; the tables
arrive as typed rows. -/
def load_from_gtfs (feed_info : FeedInfoRow) (calendar_dates : List CalendarDateRow)
    (trips : List TripRow) (stop_times : List StopTimeRow) : Except String Schedules := do
  let valid_operating_dates := _load_feed_dates feed_info
  let services := _load_services calendar_dates valid_operating_dates
  let (by_order, trip_id_to_keys) ← _load_trips trips services
  let by_order := _load_stop_times stop_times by_order trip_id_to_keys
  return ⟨by_order, valid_operating_dates⟩

/-- `alerts.Alert`: one service alert fact. -/
structure Alert where
  id : Int
  title : String
  description : String
  trips : List TripDate
deriving DecidableEq, Repr

/-- `gtfs_realtime_pb2.TripUpdate.StopTimeUpdate.ScheduleRelationship`
values used by the code. -/
inductive StuRelationship where
  | SCHEDULED
  | SKIPPED
deriving DecidableEq, Repr

/-- `gtfs_realtime_pb2.TripUpdate.StopTimeEvent` (fields the code sets);
instants are POSIX seconds. -/
structure StopTimeEvent where
  time : Int
  uncertainty : Int
deriving DecidableEq, Repr

/-- `gtfs_realtime_pb2.TripUpdate.StopTimeUpdate` (fields the code sets);
`arrival`/`departure` are `none` when left unset. -/
structure StopTimeUpdate where
  stop_sequence : Int
  stop_id : String
  schedule_relationship : StuRelationship
  arrival : Option StopTimeEvent
  departure : Option StopTimeEvent
deriving DecidableEq, Repr

/-- `delays.StopDelay`: one live per-stop delay report.  `datetime` instants
are modelled as POSIX seconds (`round(dt.timestamp())` is then the identity). -/
structure StopDelay where
  stop_id : Int
  stop_sequence : Int
  cancelled : Bool
  confirmed : Bool
  live_arrival : Int
  live_departure : Int
deriving DecidableEq, Repr

/-- `delays.StopDelay.as_gtfs_rt`: a cancelled stop renders as SKIPPED with no
time fields; otherwise SCHEDULED with arrival/departure events whose
uncertainty is 0 when confirmed, 1 otherwise. -/
def StopDelay.as_gtfs_rt (s : StopDelay) : StopTimeUpdate :=
  let u : StopTimeUpdate := ⟨s.stop_sequence, toString s.stop_id, .SCHEDULED, none, none⟩
  if s.cancelled then
    { u with schedule_relationship := .SKIPPED }
  else
    let uncertainty : Int := if s.confirmed then 0 else 1
    { u with
      schedule_relationship := .SCHEDULED
      arrival := some ⟨s.live_arrival, uncertainty⟩
      departure := some ⟨s.live_departure, uncertainty⟩ }

/-- `delays.TripDelay`: one live trip-delay fact. -/
structure TripDelay where
  trip : TripDate
  stops : List StopDelay
deriving DecidableEq, Repr

/-- `fact.Fact`: the closed union of fact variants (`Alert` / `TripDelay`),
dispatched at render time. -/
inductive Fact where
  | alert (a : Alert)
  | delay (d : TripDelay)
deriving DecidableEq, Repr

/-- Feed-entity identifier of an `Alert` (the `id=` field of
`Alert.as_gtfs_rt` and the `"id"` key of `Alert.as_json`): `A_<id>`. -/
def Alert.entity_id (a : Alert) : String := "A_" ++ toString a.id

/-- Feed-entity identifier of a `TripDelay` (the `id=` field of
`TripDelay.as_gtfs_rt` and the `"id"` key of `TripDelay.as_json`):
`D_<start_date>_<trip_id>`. -/
def TripDelay.entity_id (d : TripDelay) : String :=
  "D_" ++ isoformat d.trip.start_date ++ "_" ++ d.trip.trip_id

/-- Feed-entity identifier of a `Fact`. -/
def Fact.entity_id : Fact → String
  | .alert a => a.entity_id
  | .delay d => d.entity_id

/-- `fact.FactContainer`: a timestamped batch of facts; the timestamp is an
instant (POSIX seconds). -/
structure FactContainer where
  timestamp : Int
  facts : List Fact
deriving DecidableEq, Repr

/-- `fact.FactContainer.merge`: maximum timestamp, concatenated fact lists. -/
def FactContainer.merge (a b : FactContainer) : FactContainer :=
  ⟨max a.timestamp b.timestamp, a.facts ++ b.facts⟩

/-- Rendered entity identifiers of a container, in fact order. -/
def FactContainer.entity_ids (c : FactContainer) : List String :=
  c.facts.map Fact.entity_id

/-- Leap-year test of the proleptic Gregorian calendar. -/
def isLeap (y : Int) : Bool := (y % 4 = 0 && y % 100 ≠ 0) || y % 400 = 0

/-- Number of days of a civil month. -/
def daysInMonth (y m : Int) : Int :=
  if m = 2 then (if isLeap y then 29 else 28)
  else if m = 4 ∨ m = 6 ∨ m = 9 ∨ m = 11 then 30
  else 31

/-- `datetime.date.fromisoformat(s[:10])`: parse the first ten characters as
`YYYY-MM-DD`, rejecting out-of-range months and days. -/
def parseIsoDate (s : String) : Option Date :=
  match s.toList.take 10 with
  | [y1, y2, y3, y4, '-', m1, m2, '-', d1, d2] =>
    if [y1, y2, y3, y4, m1, m2, d1, d2].all Char.isDigit then
      let y := Int.ofNat (natOfDigits [y1, y2, y3, y4])
      let m := Int.ofNat (natOfDigits [m1, m2])
      let d := Int.ofNat (natOfDigits [d1, d2])
      if 1 ≤ m ∧ m ≤ 12 ∧ 1 ≤ d ∧ d ≤ daysInMonth y m then
        some (daysFromCivil y m d)
      else none
    else none
  | _ => none

/-- `tools.TripDate.parse`: trip id is the schedule id's textual form, start
date the first ten characters of the operating-date string. -/
def TripDate.parse (schedule_id : Int) (operating_date : String) : Option TripDate :=
  (parseIsoDate operating_date).map (fun d => ⟨toString schedule_id, d⟩)

/-- One per-stop row of a live delay record (typed JSON fields; `cn`/`cf` are
nullable booleans, instants POSIX seconds). -/
structure StopDelayRecord where
  id : Int
  psn : Int
  cn : Option Bool
  cf : Option Bool
  aa : Int
  ad : Int
deriving DecidableEq, Repr

/-- One live delay record (typed JSON fields). -/
structure TripDelayRecord where
  sid : Int
  od : String
  st : List StopDelayRecord
deriving DecidableEq, Repr

/-- Parsed JSON body of the operations endpoint: snapshot instant `ts`,
pagination flag `pg.hn`, delay records `tr`. -/
structure DelaysResponse where
  ts : Int
  hn : Bool
  tr : List TripDelayRecord
deriving DecidableEq, Repr

/-- `delays.parse_stop_delay`: nullable flags default to false. -/
def parse_stop_delay (s : StopDelayRecord) : StopDelay :=
  ⟨s.id, s.psn, s.cn.getD false, s.cf.getD false, s.aa, s.ad⟩

/-- `delays.parse_trip_delay`; `none` when the operating-date string fails to
parse (Python `ValueError`). -/
def parse_trip_delay (d : TripDelayRecord) : Option TripDelay :=
  (TripDate.parse d.sid d.od).map (fun trip => ⟨trip, d.st.map parse_stop_delay⟩)

/-- `delays.fetch_delays`, downstream of the HTTP collaborator: rejects a
paginated response with `IncompleteFeed` before any record is parsed,
otherwise returns the container of parsed delays. -/
def fetch_delays (resp : DelaysResponse) : Except String FactContainer :=
  if resp.hn then .error "operations endpoint overflowed over multiple pages"
  else do
    let facts ← resp.tr.mapM (fun r =>
      match parse_trip_delay r with
      | some d => Except.ok (Fact.delay d)
      | none => Except.error "Invalid isoformat string")
    return ⟨resp.ts, facts⟩

/-- The stream of `by_order_number` writes performed by `_load_stop_times`,
in execution order: one `(OrderKey, operator order number, StopTime)` triple
per reverse-index pair of each row. -/
def stWrites (rows : List StopTimeRow) (trip_id_to_keys : List (String × List TripKeyPair)) :
    List (OrderKey × Int × StopTime) :=
  (rows.map (fun row =>
    ((dget trip_id_to_keys row.trip_id).getD []).map
      (fun p => (p.live, row.plk_order, (⟨p.gtfs, row.stop_sequence, row.stop_id⟩ : StopTime))))).flatten

/-- The value stored by the last write targeting key `k` and order number
`n`, `none` when no write targets them. -/
def lastWrite (ws : List (OrderKey × Int × StopTime)) (k : OrderKey) (n : Int) :
    Option StopTime :=
  ((ws.filter (fun w => w.1 = k && w.2.1 = n)).getLast?).map (fun w => w.2.2)

/-- Invariant threaded through `_load_stop_times`: after the writes `ws` have
been performed, every `Trips` aggregate's `by_order_number` dictionary has
unique keys and maps each order number to the last write targeting it. -/
def StInv (ws : List (OrderKey × Int × StopTime)) (bo : List (OrderKey × Trips)) : Prop :=
  ∀ k t, (k, t) ∈ bo →
    (t.by_order_number.map Prod.fst).Nodup ∧
    ∀ n, dget t.by_order_number n = lastWrite ws k n

/-- Relation every stored `(OrderKey, TripDate)` pair of the index satisfies:
the operating date lies in the admissible range, and some trip row of the
trips table carries this trip identifier and a service identifier whose day
shift relates the two dates by `operating_date = start_date - shift`. -/
def TripProp (range : BoundedDateRange) (tr : List TripRow)
    (k : OrderKey) (td : TripDate) : Prop :=
  range.contains k.operating_date = true ∧
  ∃ row ∈ tr, row.trip_id = td.trip_id ∧
    k.operating_date = td.start_date - _extract_start_date_offset row.service_id

/-- Invariant of pass 3: every `TripDate` in any aggregate's `all` list
satisfies `TripProp` with its `OrderKey`. -/
def GInv (range : BoundedDateRange) (tr : List TripRow)
    (bo : List (OrderKey × Trips)) : Prop :=
  ∀ k t, (k, t) ∈ bo → ∀ td ∈ t.all, TripProp range tr k td

/-- Sample input: feed-info row declaring day range 10..20. -/
def exFeedInfo : FeedInfoRow := ⟨10, 20⟩

/-- Sample input: one calendar-date row for a service with a `-1D` suffix. -/
def exCal : List CalendarDateRow := [⟨"S-1D", 12⟩]

/-- Sample input: one trip row. -/
def exTrips : List TripRow := [⟨"12_3", "S-1D"⟩]

/-- Sample input: two stop-time rows carrying the same operator order number
5, so the second must win. -/
def exStops : List StopTimeRow := [⟨"12_3", 1, "stopA", 5⟩, ⟨"12_3", 2, "stopB", 5⟩]

/-- The `Trips` aggregate the sample input builds. -/
def exTripsAgg : Trips := ⟨[⟨"12_3", 12⟩], [(5, ⟨⟨"12_3", 12⟩, 2, "stopB"⟩)]⟩

/-- The Schedule Index the sample input builds. -/
def exSched : Schedules := ⟨[(⟨12, 3, 13⟩, exTripsAgg)], ⟨9, 20⟩⟩

/-- The pass-3 `by_order` of the sample input. -/
def exBo : List (OrderKey × Trips) := [(⟨12, 3, 13⟩, ⟨[⟨"12_3", 12⟩], []⟩)]

/-- The pass-3 reverse index of the sample input. -/
def exTik : List (String × List TripKeyPair) := [("12_3", [⟨⟨"12_3", 12⟩, ⟨12, 3, 13⟩⟩])]

section DictLemmas

variable {κ α : Type} [DecidableEq κ]

theorem dget_mem {m : List (κ × α)} {k : κ} {v : α} (h : dget m k = some v) :
    (k, v) ∈ m := by
  unfold dget at h
  cases hf : m.find? (fun p => p.1 = k) with
  | none => rw [hf] at h; exact absurd h (by simp)
  | some p =>
    rw [hf] at h
    have hp : p.1 = k := by simpa using List.find?_some hf
    have hm := List.mem_of_find?_eq_some hf
    obtain ⟨p1, p2⟩ := p
    simp only [Option.map_some'] at h
    cases hp; cases h; exact hm

theorem dget_cons (a : κ) (b : α) (m : List (κ × α)) (k : κ) :
    dget ((a, b) :: m) k = if a = k then some b else dget m k := by
  unfold dget
  rw [List.find?_cons]
  by_cases h : a = k
  · simp [h]
  · simp [h]

theorem keys_dset (m : List (κ × α)) (k : κ) (v : α) :
    (dset m k v).map Prod.fst = m.map Prod.fst := by
  unfold dset
  induction m with
  | nil => rfl
  | cons p m ih =>
    simp only [List.map_cons, ih]
    by_cases hpk : p.1 = k
    · simp [hpk]
    · simp [hpk]

theorem dget_dset_self {m : List (κ × α)} {k : κ} (v : α)
    (h : (m.find? (fun p => p.1 = k)).isSome) : dget (dset m k v) k = some v := by
  induction m with
  | nil => simp [List.find?] at h
  | cons p m ih =>
    obtain ⟨a, b⟩ := p
    show dget ((if a = k then (k, v) else (a, b)) :: dset m k v) k = some v
    by_cases hak : a = k
    · rw [if_pos hak, dget_cons, if_pos rfl]
    · rw [if_neg hak, dget_cons, if_neg hak]
      apply ih
      rwa [List.find?_cons_of_neg _ (by simpa using hak)] at h

theorem dget_dset_ne (m : List (κ × α)) (k k' : κ) (v : α) (h : k' ≠ k) :
    dget (dset m k v) k' = dget m k' := by
  induction m with
  | nil => rfl
  | cons p m ih =>
    obtain ⟨a, b⟩ := p
    show dget ((if a = k then (k, v) else (a, b)) :: dset m k v) k' = _
    by_cases hak : a = k
    · rw [if_pos hak, dget_cons, if_neg (Ne.symm h), dget_cons,
        if_neg (fun hh => h (hak.symm.trans hh).symm), ih]
    · rw [if_neg hak, dget_cons, dget_cons]
      by_cases hak' : a = k'
      · rw [if_pos hak', if_pos hak']
      · rw [if_neg hak', if_neg hak', ih]

theorem dget_append_single_self (m : List (κ × α)) (k : κ) (v : α)
    (h : ∀ p ∈ m, p.1 ≠ k) : dget (m ++ [(k, v)]) k = some v := by
  induction m with
  | nil => show dget [(k, v)] k = some v; rw [dget_cons, if_pos rfl]
  | cons p m ih =>
    obtain ⟨a, b⟩ := p
    show dget ((a, b) :: (m ++ [(k, v)])) k = some v
    rw [dget_cons, if_neg (h (a, b) (by simp))]
    exact ih (fun q hq => h q (List.mem_cons_of_mem _ hq))

theorem dget_append_single_ne (m : List (κ × α)) (k k' : κ) (v : α) (h : k' ≠ k) :
    dget (m ++ [(k, v)]) k' = dget m k' := by
  induction m with
  | nil =>
    show dget [(k, v)] k' = none
    rw [dget_cons, if_neg (Ne.symm h)]; rfl
  | cons p m ih =>
    obtain ⟨a, b⟩ := p
    show dget ((a, b) :: (m ++ [(k, v)])) k' = _
    rw [dget_cons, dget_cons]
    by_cases hak' : a = k'
    · rw [if_pos hak', if_pos hak']
    · rw [if_neg hak', if_neg hak', ih]

theorem dget_dinsert_self (m : List (κ × α)) (k : κ) (v : α) :
    dget (dinsert m k v) k = some v := by
  unfold dinsert
  split
  · exact dget_dset_self v (by assumption)
  · rename_i hf
    have hnone := Option.not_isSome_iff_eq_none.mp hf
    have hall := List.find?_eq_none.mp hnone
    exact dget_append_single_self m k v (fun p hp => by simpa using hall p hp)

theorem dget_dinsert_ne (m : List (κ × α)) (k k' : κ) (v : α) (h : k' ≠ k) :
    dget (dinsert m k v) k' = dget m k' := by
  unfold dinsert
  split
  · exact dget_dset_ne m k k' v h
  · exact dget_append_single_ne m k k' v h

theorem nodup_keys_dinsert (m : List (κ × α)) (k : κ) (v : α)
    (h : (m.map Prod.fst).Nodup) : ((dinsert m k v).map Prod.fst).Nodup := by
  unfold dinsert
  split
  · rw [keys_dset]; exact h
  · rename_i hf
    have hnone := Option.not_isSome_iff_eq_none.mp hf
    have hall := List.find?_eq_none.mp hnone
    rw [List.map_append]
    simp only [List.map_cons, List.map_nil]
    rw [List.nodup_append]
    refine ⟨h, List.nodup_singleton k, fun x hx hk => ?_⟩
    simp only [List.mem_singleton] at hk
    subst hk
    obtain ⟨p, hp, hpk⟩ := List.mem_map.mp hx
    have hpx : ¬(p.1 = x) := by simpa using hall p hp
    exact hpx hpk

theorem mem_dmodify {m : List (κ × α)} {key : κ} {f : α → α} {k : κ} {t' : α}
    (h : (k, t') ∈ dmodify m key f) :
    ∃ t, (k, t) ∈ m ∧ ((k = key ∧ t' = f t) ∨ (k ≠ key ∧ t' = t)) := by
  unfold dmodify at h
  obtain ⟨⟨p1, p2⟩, hp, hpe⟩ := List.mem_map.mp h
  by_cases hpk : p1 = key
  · rw [if_pos (by simpa using hpk)] at hpe
    have h1 : p1 = k := congrArg Prod.fst hpe
    have h2 : f p2 = t' := congrArg Prod.snd hpe
    subst h1
    exact ⟨p2, hp, Or.inl ⟨hpk, h2.symm⟩⟩
  · rw [if_neg (by simpa using hpk)] at hpe
    have h1 : p1 = k := congrArg Prod.fst hpe
    have h2 : p2 = t' := congrArg Prod.snd hpe
    subst h1
    exact ⟨p2, hp, Or.inr ⟨hpk, h2.symm⟩⟩

theorem mem_dappend {m : List (κ × List α)} {key k : κ} {v : α} {l : List α}
    (h : (k, l) ∈ dappend m key v) :
    (∃ l₀, (k, l₀) ∈ m ∧ (l = l₀ ∨ (k = key ∧ l = l₀ ++ [v]))) ∨ (k = key ∧ l = [v]) := by
  unfold dappend at h
  split at h
  · obtain ⟨⟨p1, p2⟩, hp, hpe⟩ := List.mem_map.mp h
    by_cases hpk : p1 = key
    · rw [if_pos (by simpa using hpk)] at hpe
      have h1 : p1 = k := congrArg Prod.fst hpe
      have h2 : p2 ++ [v] = l := congrArg Prod.snd hpe
      subst h1
      exact Or.inl ⟨p2, hp, Or.inr ⟨hpk, h2.symm⟩⟩
    · rw [if_neg (by simpa using hpk)] at hpe
      have h1 : p1 = k := congrArg Prod.fst hpe
      have h2 : p2 = l := congrArg Prod.snd hpe
      subst h1
      exact Or.inl ⟨p2, hp, Or.inl h2.symm⟩
  · rw [List.mem_append] at h
    cases h with
    | inl h => exact Or.inl ⟨l, h, Or.inl rfl⟩
    | inr h => simp only [List.mem_singleton, Prod.mk.injEq] at h; exact Or.inr h

end DictLemmas

theorem load_from_gtfs_ok {fi : FeedInfoRow} {cal : List CalendarDateRow}
    {tr : List TripRow} {st : List StopTimeRow} {sched : Schedules}
    (h : load_from_gtfs fi cal tr st = .ok sched) :
    ∃ bo tik, _load_trips tr (_load_services cal (_load_feed_dates fi)) = .ok (bo, tik) ∧
      sched = ⟨_load_stop_times st bo tik, _load_feed_dates fi⟩ := by
  unfold load_from_gtfs at h
  cases hl : _load_trips tr (_load_services cal (_load_feed_dates fi)) with
  | error e =>
    simp only [hl, Bind.bind, Except.bind] at h
    exact absurd h (by simp)
  | ok p =>
    obtain ⟨bo, tik⟩ := p
    refine ⟨bo, tik, rfl, ?_⟩
    simp only [hl, Bind.bind, Except.bind, pure, Except.pure, Except.ok.injEq] at h
    exact h.symm

example : _extract_start_date_offset "PKP+1D" = 1 := by decide
example : _extract_start_date_offset "PKP-2D" = -2 := by decide
example : _extract_start_date_offset "PKP" = 0 := by decide
example : _extract_start_date_offset "X-123D" = -123 := by decide
example : _extract_schedule_order_ids "12345_6" = some (12345, 6) := by decide
example : _extract_schedule_order_ids "12_34_56" = some (12, 34) := by decide
example : _extract_schedule_order_ids "a12_34" = none := by decide
example : daysFromCivil 2025 6 1 - 1 = daysFromCivil 2025 5 31 := by decide
example : civilFromDays (daysFromCivil 2025 5 31) = (2025, 5, 31) := by decide
example : isoformat (daysFromCivil 2025 5 31) = "2025-05-31" := by decide

/-- C2: for every static feed archive whose feed-info table declares first day
F and last day L, the built index's `valid_operating_dates` is exactly the
inclusive range from F minus one day to L; in particular the declared range
2025-06-01..2025-06-30 yields the admissible range 2025-05-31..2025-06-30. -/
theorem valid_operating_dates_spec (fi : FeedInfoRow) (cal : List CalendarDateRow)
    (tr : List TripRow) (st : List StopTimeRow) (sched : Schedules)
    (h : load_from_gtfs fi cal tr st = .ok sched) :
    sched.valid_operating_dates = ⟨fi.feed_start_date - 1, fi.feed_end_date⟩ ∧
    (∀ d : Date, sched.valid_operating_dates.contains d = true ↔
      fi.feed_start_date - 1 ≤ d ∧ d ≤ fi.feed_end_date) ∧
    _load_feed_dates ⟨daysFromCivil 2025 6 1, daysFromCivil 2025 6 30⟩ =
      ⟨daysFromCivil 2025 5 31, daysFromCivil 2025 6 30⟩ := by
  obtain ⟨bo, tik, hl, hs⟩ := load_from_gtfs_ok h
  subst hs
  refine ⟨?_, ?_, by decide⟩
  · show _load_feed_dates fi = _
    unfold _load_feed_dates
    rw [← sub_eq_add_neg]
  · intro d
    show (_load_feed_dates fi).contains d = true ↔ _
    simp only [_load_feed_dates, BoundedDateRange.contains, Bool.and_eq_true,
      decide_eq_true_eq]
    rw [← sub_eq_add_neg]

/-- C2 witness: the theorem applied to a concrete empty archive with declared
range 10..20. -/
theorem valid_operating_dates_spec_witness :
    (⟨[], ⟨9, 20⟩⟩ : Schedules).valid_operating_dates = ⟨(10 : Int) - 1, 20⟩ :=
  (valid_operating_dates_spec ⟨10, 20⟩ [] [] [] ⟨[], ⟨9, 20⟩⟩ rfl).1

/-- C5: `merge` takes the maximum timestamp and concatenates the fact lists
in order; consequently the two associativity groupings agree on timestamp and
on the fact multiset. -/
theorem merge_spec (a b : FactContainer) :
    (a.merge b).timestamp = max a.timestamp b.timestamp ∧
    (a.merge b).facts = a.facts ++ b.facts ∧
    ∀ A B C : FactContainer,
      ((A.merge B).merge C).timestamp = (A.merge (B.merge C)).timestamp ∧
      (((A.merge B).merge C).facts : Multiset Fact) =
        ((A.merge (B.merge C)).facts : Multiset Fact) := by
  refine ⟨rfl, rfl, fun A B C => ⟨?_, ?_⟩⟩
  · show max (max A.timestamp B.timestamp) C.timestamp
        = max A.timestamp (max B.timestamp C.timestamp)
    exact max_assoc ..
  · show (((A.facts ++ B.facts) ++ C.facts : List Fact) : Multiset Fact)
        = ((A.facts ++ (B.facts ++ C.facts) : List Fact) : Multiset Fact)
    rw [List.append_assoc]

/-- C8: a cancelled `StopDelay` renders as a SKIPPED stop-time update carrying
no arrival or departure, otherwise as a SCHEDULED update carrying the live
arrival and departure instants with uncertainty 0 when confirmed and 1 when
not. -/
theorem stop_delay_as_gtfs_rt_spec (s : StopDelay) :
    (s.cancelled = true →
      s.as_gtfs_rt = ⟨s.stop_sequence, toString s.stop_id, .SKIPPED, none, none⟩) ∧
    (s.cancelled = false →
      s.as_gtfs_rt = ⟨s.stop_sequence, toString s.stop_id, .SCHEDULED,
        some ⟨s.live_arrival, if s.confirmed then 0 else 1⟩,
        some ⟨s.live_departure, if s.confirmed then 0 else 1⟩⟩) := by
  constructor <;> intro h <;> simp [StopDelay.as_gtfs_rt, h]

/-- C8 witness: the theorem applied to a concrete cancelled stop and a
concrete scheduled unconfirmed stop. -/
theorem stop_delay_as_gtfs_rt_spec_witness :
    ((⟨5, 2, true, false, 100, 200⟩ : StopDelay).as_gtfs_rt =
      ⟨2, toString (5 : Int), .SKIPPED, none, none⟩) ∧
    ((⟨5, 2, false, false, 100, 200⟩ : StopDelay).as_gtfs_rt =
      ⟨2, toString (5 : Int), .SCHEDULED, some ⟨100, if false then 0 else 1⟩,
        some ⟨200, if false then 0 else 1⟩⟩) :=
  ⟨(stop_delay_as_gtfs_rt_spec ⟨5, 2, true, false, 100, 200⟩).1 rfl,
   (stop_delay_as_gtfs_rt_spec ⟨5, 2, false, false, 100, 200⟩).2 rfl⟩

/-- C9: a delay-fetch response whose pagination flag indicates further pages
makes the fetch fail with `IncompleteFeed`; no container (not even a partial
one of the first page) is produced. -/
theorem fetch_delays_incomplete (resp : DelaysResponse) (h : resp.hn = true) :
    fetch_delays resp = .error "operations endpoint overflowed over multiple pages" ∧
    ∀ c : FactContainer, fetch_delays resp ≠ .ok c := by
  have he : fetch_delays resp
      = .error "operations endpoint overflowed over multiple pages" := by
    unfold fetch_delays
    rw [if_pos h]
  refine ⟨he, fun c hc => ?_⟩
  rw [he] at hc
  exact absurd hc (by simp)

/-- C9 witness: the theorem applied to a concrete paginated response. -/
theorem fetch_delays_incomplete_witness :
    fetch_delays ⟨123, true, []⟩
      = .error "operations endpoint overflowed over multiple pages" ∧
    ∀ c : FactContainer, fetch_delays ⟨123, true, []⟩ ≠ .ok c :=
  fetch_delays_incomplete ⟨123, true, []⟩ rfl

/-- C10: a stop-time row whose trip identifier has no entry in the pass-3
reverse index is silently skipped — `_load_stop_times` is total (no error
path exists), processing the row equals not processing it, and a single such
row leaves `by_order` unchanged. -/
theorem stop_times_skip_unknown_trip (row : StopTimeRow) (rows : List StopTimeRow)
    (by_order : List (OrderKey × Trips)) (tik : List (String × List TripKeyPair))
    (h : dget tik row.trip_id = none) :
    _load_stop_times (row :: rows) by_order tik = _load_stop_times rows by_order tik ∧
    _load_stop_times [row] by_order tik = by_order := by
  constructor
  · show _load_stop_times (row :: rows) by_order tik = _
    conv_lhs => rw [_load_stop_times]
    rw [h]
    rfl
  · show _load_stop_times [row] by_order tik = by_order
    unfold _load_stop_times
    rw [h]
    rfl

/-- C10 witness: the theorem applied to a concrete row with an unknown trip
identifier over a nonempty index. -/
theorem stop_times_skip_unknown_trip_witness :
    _load_stop_times [⟨"zz", 1, "q", 9⟩, ⟨"zz", 2, "r", 10⟩]
        [(⟨12, 3, 13⟩, ⟨[⟨"12_3", 12⟩], []⟩)] [("12_3", [⟨⟨"12_3", 12⟩, ⟨12, 3, 13⟩⟩])]
      = _load_stop_times [⟨"zz", 2, "r", 10⟩]
        [(⟨12, 3, 13⟩, ⟨[⟨"12_3", 12⟩], []⟩)] [("12_3", [⟨⟨"12_3", 12⟩, ⟨12, 3, 13⟩⟩])] ∧
    _load_stop_times [⟨"zz", 1, "q", 9⟩]
        [(⟨12, 3, 13⟩, ⟨[⟨"12_3", 12⟩], []⟩)] [("12_3", [⟨⟨"12_3", 12⟩, ⟨12, 3, 13⟩⟩])]
      = [(⟨12, 3, 13⟩, ⟨[⟨"12_3", 12⟩], []⟩)] :=
  stop_times_skip_unknown_trip ⟨"zz", 1, "q", 9⟩ [⟨"zz", 2, "r", 10⟩]
    [(⟨12, 3, 13⟩, ⟨[⟨"12_3", 12⟩], []⟩)] [("12_3", [⟨⟨"12_3", 12⟩, ⟨12, 3, 13⟩⟩])]
    (by decide)

/-- C6 counterexample: rendered entity identifiers are NOT pairwise unique
across every container — a container holding the same alert (numeric id 42)
twice renders the identifier `A_42` twice.  Nothing in the code deduplicates
facts or their identifiers. -/
theorem entity_ids_not_pairwise_unique :
    ¬ (FactContainer.mk 0 [.alert ⟨42, "t", "d", []⟩, .alert ⟨42, "t", "d", []⟩]).entity_ids.Nodup := by
  decide

/-- C6 (amended): within any container, an alert's rendered entity identifier
(prefix `A_`) never equals a trip delay's rendered entity identifier (prefix
`D_`), even when the alert's numeric id equals the delay's numeric trip
identifier; so the alert and delay identifier spaces never collide.  (Full
pairwise uniqueness fails when two facts of the same kind repeat the same
key, see the counterexample.) -/
theorem alert_delay_entity_ids_distinct (c : FactContainer) (a : Alert) (d : TripDelay)
    (ha : Fact.alert a ∈ c.facts) (hd : Fact.delay d ∈ c.facts) :
    a.entity_id ≠ d.entity_id := by
  intro h
  have hdata := congrArg String.data h
  rw [Alert.entity_id, TripDelay.entity_id, String.data_append, String.data_append] at hdata
  have hhead := congrArg List.head? hdata
  simp [show ("A_" : String).data = ['A', '_'] from rfl,
    show ("D_" : String).data = ['D', '_'] from rfl] at hhead

/-- C6 witness: the amended theorem applied to a concrete container mixing an
alert with numeric id 42 and a delay whose numeric trip identifier is also
42. -/
theorem alert_delay_entity_ids_distinct_witness :
    (⟨42, "t", "d", []⟩ : Alert).entity_id
      ≠ (⟨⟨"42", daysFromCivil 2025 6 2⟩, []⟩ : TripDelay).entity_id :=
  alert_delay_entity_ids_distinct
    ⟨0, [.alert ⟨42, "t", "d", []⟩, .delay ⟨⟨"42", daysFromCivil 2025 6 2⟩, []⟩]⟩
    ⟨42, "t", "d", []⟩ ⟨⟨"42", daysFromCivil 2025 6 2⟩, []⟩
    (by simp) (by simp)

theorem takeWhile_append_all {α : Type} (p : α → Bool) (l r : List α)
    (h1 : ∀ a ∈ l, p a = true) (h2 : ∀ a, r.head? = some a → p a = false) :
    (l ++ r).takeWhile p = l ∧ (l ++ r).dropWhile p = r := by
  induction l with
  | nil =>
    simp only [List.nil_append]
    cases r with
    | nil => exact ⟨rfl, rfl⟩
    | cons x xs =>
      have hx := h2 x rfl
      exact ⟨by simp [List.takeWhile_cons, hx], by simp [List.dropWhile_cons, hx]⟩
  | cons y l ih =>
    have hy := h1 y (List.mem_cons_self y l)
    obtain ⟨ih1, ih2⟩ := ih (fun a ha => h1 a (List.mem_cons_of_mem y ha))
    constructor
    · show List.takeWhile p (y :: (l ++ r)) = y :: l
      rw [List.takeWhile_cons]
      simp [hy, ih1]
    · show List.dropWhile p (y :: (l ++ r)) = r
      rw [List.dropWhile_cons]
      simp [hy, ih2]

theorem ofDigits_reverse_eq_natOfDigits (d : List Char) :
    Nat.ofDigits 10 (d.reverse.map (fun c => c.toNat - '0'.toNat)) = natOfDigits d := by
  induction d using List.reverseRecOn with
  | nil => rfl
  | append_singleton d c ih =>
    rw [List.reverse_append]
    simp only [List.reverse_cons, List.reverse_nil, List.nil_append, List.singleton_append,
      List.map_cons, Nat.ofDigits_cons, ih]
    show _ + 10 * natOfDigits d = natOfDigits (d ++ [c])
    unfold natOfDigits
    rw [List.foldl_append]
    show c.toNat - '0'.toNat + 10 * List.foldl _ 0 d
        = List.foldl _ 0 d * 10 + (c.toNat - '0'.toNat)
    omega

theorem extract_offset_of_rev_cons {s : String} {rest : List Char}
    (h : s.toList.reverse = 'D' :: rest) :
    _extract_start_date_offset s = extractOffsetAux rest := by
  unfold _extract_start_date_offset
  rw [h]
  rfl

theorem extract_offset_decomp {s : String} {rest : List Char} {c : Char} {tail : List Char}
    (hrev : s.toList.reverse = 'D' :: rest)
    (hdw : rest.dropWhile Char.isDigit = c :: tail)
    (hds : (rest.takeWhile Char.isDigit).isEmpty = false) :
    s.toList = tail.reverse ++ c :: (rest.takeWhile Char.isDigit).reverse ++ ['D'] ∧
    (rest.takeWhile Char.isDigit).reverse ≠ [] ∧
    (∀ x ∈ (rest.takeWhile Char.isDigit).reverse, x.isDigit = true) := by
  refine ⟨?_, ?_, ?_⟩
  · have h1 : s.toList = ('D' :: rest).reverse := by
      rw [← hrev, List.reverse_reverse]
    have h2 : rest = rest.takeWhile Char.isDigit ++ (c :: tail) := by
      rw [← hdw, List.takeWhile_append_dropWhile]
    rw [h1, List.reverse_cons]
    rw [show rest.reverse = (c :: tail).reverse ++ (rest.takeWhile Char.isDigit).reverse by
      rw [← List.reverse_append, ← h2]]
    simp [List.append_assoc]
  · intro hnil
    have hempty : rest.takeWhile Char.isDigit = [] := by
      rwa [List.reverse_eq_nil_iff] at hnil
    rw [hempty] at hds
    exact absurd hds (by simp)
  · intro x hx
    exact List.mem_takeWhile_imp (List.mem_reverse.mp hx)

/-- C4: the day-shift extraction is total by construction (it is a plain
function into `Int`; no error case exists).  When the service identifier ends
in a sign, a nonempty digit run and `D`, it returns that signed integer;
otherwise it returns 0. -/
theorem extract_day_shift_spec (s : String) :
    (∀ (p : List Char) (c : Char) (d : List Char),
      s.toList = p ++ c :: d ++ ['D'] → (c = '+' ∨ c = '-') → d ≠ [] →
      (∀ x ∈ d, x.isDigit = true) →
      _extract_start_date_offset s =
        (if c = '-' then -1 else 1) * Int.ofNat (natOfDigits d)) ∧
    ((¬ ∃ (p : List Char) (c : Char) (d : List Char),
        s.toList = p ++ c :: d ++ ['D'] ∧ (c = '+' ∨ c = '-') ∧ d ≠ [] ∧
        ∀ x ∈ d, x.isDigit = true) →
      _extract_start_date_offset s = 0) := by
  constructor
  · intro p c d hs hc hd hdig
    have hrev : s.toList.reverse = 'D' :: (d.reverse ++ c :: p.reverse) := by
      rw [hs]
      simp [List.reverse_append]
    have hcnd : Char.isDigit c = false := by
      rcases hc with rfl | rfl <;> decide
    obtain ⟨htake, hdrop⟩ := takeWhile_append_all Char.isDigit d.reverse (c :: p.reverse)
      (fun a ha => hdig a (List.mem_reverse.mp ha))
      (fun a ha => by
        simp only [List.head?_cons, Option.some.injEq] at ha
        exact ha ▸ hcnd)
    rw [extract_offset_of_rev_cons hrev]
    simp only [extractOffsetAux]
    rw [htake, hdrop]
    have hne : d.reverse.isEmpty = false := by
      cases d with
      | nil => exact absurd rfl hd
      | cons x xs => simp
    rw [if_neg (by simp [hne])]
    rcases hc with rfl | rfl
    · show Int.ofNat (Nat.ofDigits 10 (d.reverse.map _)) = _
      rw [ofDigits_reverse_eq_natOfDigits]
      simp
    · show -Int.ofNat (Nat.ofDigits 10 (d.reverse.map _)) = _
      rw [ofDigits_reverse_eq_natOfDigits]
      simp
  · intro hno
    unfold _extract_start_date_offset
    split
    · rename_i rest hrev
      simp only [extractOffsetAux]
      by_cases hds : (rest.takeWhile Char.isDigit).isEmpty
      · rw [if_pos hds]
      · rw [if_neg hds]
        have hds' : (rest.takeWhile Char.isDigit).isEmpty = false :=
          Bool.eq_false_iff.mpr hds

        split
        · rename_i tail hdw
          obtain ⟨h1, h2, h3⟩ := extract_offset_decomp hrev hdw hds'
          exact absurd ⟨tail.reverse, '+', (rest.takeWhile Char.isDigit).reverse,
            h1, Or.inl rfl, h2, h3⟩ hno
        · rename_i tail hdw
          obtain ⟨h1, h2, h3⟩ := extract_offset_decomp hrev hdw hds'
          exact absurd ⟨tail.reverse, '-', (rest.takeWhile Char.isDigit).reverse,
            h1, Or.inr rfl, h2, h3⟩ hno
        · rfl
    · rfl

/-- C4 witness: the theorem applied to `"X+12D"` (suffix present) and `"PKP"`
(no suffix). -/
theorem extract_day_shift_spec_witness :
    _extract_start_date_offset "X+12D"
      = (if ('+' : Char) = '-' then -1 else 1) * Int.ofNat (natOfDigits ['1', '2']) ∧
    _extract_start_date_offset "PKP" = 0 := by
  constructor
  · exact (extract_day_shift_spec "X+12D").1 ['X'] '+' ['1', '2'] (by decide)
      (Or.inl rfl) (by decide) (by decide)
  · refine (extract_day_shift_spec "PKP").2 ?_
    rintro ⟨p, c, d, hs, hc, hd, hdig⟩
    have hrev := congrArg List.reverse hs
    have hPKP : ("PKP" : String).toList.reverse = ['P', 'K', 'P'] := by decide
    rw [hPKP] at hrev
    rw [List.reverse_append, List.reverse_cons, List.reverse_append] at hrev
    have hh := congrArg List.head? hrev
    simp at hh

theorem extract_order_some_decomp {s : String} {v : Int × Int}
    (h : _extract_schedule_order_ids s = some v) :
    ∃ d1 d2 rest, s.toList = d1 ++ '_' :: d2 ++ rest ∧ d1 ≠ [] ∧ d2 ≠ [] ∧
      (∀ c ∈ d1, c.isDigit = true) ∧ (∀ c ∈ d2, c.isDigit = true) := by
  simp only [_extract_schedule_order_ids] at h
  by_cases h1 : (s.toList.takeWhile Char.isDigit).isEmpty
  · rw [if_pos h1] at h
    exact absurd h (by simp)
  · rw [if_neg h1] at h
    unfold extractOrderAux at h
    split at h
    · rename_i rest2 hdw
      by_cases h2 : (rest2.takeWhile Char.isDigit).isEmpty
      · rw [if_pos h2] at h
        exact absurd h (by simp)
      · refine ⟨s.toList.takeWhile Char.isDigit, rest2.takeWhile Char.isDigit,
          rest2.dropWhile Char.isDigit, ?_, ?_, ?_, ?_, ?_⟩
        · conv_lhs => rw [← List.takeWhile_append_dropWhile Char.isDigit s.toList]
          rw [hdw, List.append_assoc, List.cons_append, List.takeWhile_append_dropWhile]
        · intro hnil
          rw [hnil] at h1
          exact h1 rfl
        · intro hnil
          rw [hnil] at h2
          exact h2 rfl
        · exact fun c hc => List.mem_takeWhile_imp hc
        · exact fun c hc => List.mem_takeWhile_imp hc
    · exact absurd h (by simp)

theorem load_trips_go_error_of_bad_row (services : List (String × List DatePair))
    (rows : List TripRow) (st : TripsState)
    (hbad : ∃ row ∈ rows, _extract_schedule_order_ids row.trip_id = none) :
    ∃ e, _load_trips.go services rows st = .error e := by
  induction rows generalizing st with
  | nil => simp at hbad
  | cons row rest ih =>
    cases hx : _extract_schedule_order_ids row.trip_id with
    | none =>
      refine ⟨"failed to extract schedule & order ids from trip_id " ++ row.trip_id, ?_⟩
      unfold _load_trips.go
      rw [hx]
    | some v =>
      obtain ⟨r, hr, hrn⟩ := hbad
      rcases List.mem_cons.mp hr with rfl | hr'
      · rw [hx] at hrn
        exact absurd hrn (by simp)
      · obtain ⟨a, b⟩ := v
        obtain ⟨e, he⟩ := ih _ ⟨r, hr', hrn⟩
        refine ⟨e, ?_⟩
        unfold _load_trips.go
        rw [hx]
        exact he

/-- C3: a trip identifier beginning with a `<digits>_<digits>` prefix yields
the pair of the two (maximal) leading digit runs; a trip row whose identifier
lacks such a prefix makes the whole index build fail with the
malformed-identifier error — it is neither skipped nor defaulted. -/
theorem extract_schedule_order_spec :
    (∀ (d1 d2 rest : List Char),
      d1 ≠ [] → d2 ≠ [] → (∀ c ∈ d1, c.isDigit = true) → (∀ c ∈ d2, c.isDigit = true) →
      (∀ c, rest.head? = some c → c.isDigit = false) →
      _extract_schedule_order_ids ⟨d1 ++ '_' :: d2 ++ rest⟩
        = some (Int.ofNat (natOfDigits d1), Int.ofNat (natOfDigits d2))) ∧
    (∀ (fi : FeedInfoRow) (cal : List CalendarDateRow) (tr : List TripRow)
        (st : List StopTimeRow) (row : TripRow), row ∈ tr →
      (¬ ∃ (d1 d2 rest : List Char),
        row.trip_id.toList = d1 ++ '_' :: d2 ++ rest ∧ d1 ≠ [] ∧ d2 ≠ [] ∧
        (∀ c ∈ d1, c.isDigit = true) ∧ (∀ c ∈ d2, c.isDigit = true)) →
      ∀ sched, load_from_gtfs fi cal tr st ≠ .ok sched) := by
  constructor
  · intro d1 d2 rest hne1 hne2 hdig1 hdig2 hrest
    have hund : Char.isDigit '_' = false := by decide
    obtain ⟨htake1, hdrop1⟩ := takeWhile_append_all Char.isDigit d1 ('_' :: (d2 ++ rest))
      hdig1 (fun a ha => by
        simp only [List.head?_cons, Option.some.injEq] at ha
        exact ha ▸ hund)
    obtain ⟨htake2, hdrop2⟩ := takeWhile_append_all Char.isDigit d2 rest hdig2 hrest
    have hcs : (String.mk (d1 ++ '_' :: d2 ++ rest)).toList = d1 ++ '_' :: (d2 ++ rest) := by
      show (d1 ++ '_' :: d2) ++ rest = d1 ++ '_' :: (d2 ++ rest)
      rw [List.append_assoc, List.cons_append]
    simp only [_extract_schedule_order_ids, hcs, htake1, hdrop1]
    rw [if_neg (by simp [List.isEmpty_iff, hne1])]
    show extractOrderAux d1 ('_' :: (d2 ++ rest)) = _
    unfold extractOrderAux
    simp only [htake2]
    rw [if_neg (by simp [List.isEmpty_iff, hne2])]
  · intro fi cal tr st row hrow hnod sched hok
    obtain ⟨bo, tik, hl, hs⟩ := load_from_gtfs_ok hok
    cases hx : _extract_schedule_order_ids row.trip_id with
    | some v => exact hnod (extract_order_some_decomp hx)
    | none =>
      obtain ⟨e, he⟩ := load_trips_go_error_of_bad_row
        (_load_services cal (_load_feed_dates fi)) tr ([], []) ⟨row, hrow, hx⟩
      rw [show _load_trips tr (_load_services cal (_load_feed_dates fi))
          = _load_trips.go (_load_services cal (_load_feed_dates fi)) tr ([], []) from rfl,
        he] at hl
      exact absurd hl (by simp)

/-- C3 witness: the theorem applied to the prefix `12_3` and to a concrete
archive holding a malformed trip identifier `bad`. -/
theorem extract_schedule_order_spec_witness :
    _extract_schedule_order_ids ⟨['1', '2'] ++ '_' :: ['3'] ++ []⟩
      = some (Int.ofNat (natOfDigits ['1', '2']), Int.ofNat (natOfDigits ['3'])) ∧
    ∀ sched, load_from_gtfs ⟨10, 20⟩ [⟨"S", 12⟩] [⟨"bad", "S"⟩] [] ≠ .ok sched := by
  constructor
  · exact extract_schedule_order_spec.1 ['1', '2'] ['3'] [] (by decide) (by decide)
      (by decide) (by decide) (fun c hc => by simp at hc)
  · intro sched
    refine extract_schedule_order_spec.2 ⟨10, 20⟩ [⟨"S", 12⟩] [⟨"bad", "S"⟩] []
      ⟨"bad", "S"⟩ (by simp) ?_ sched
    rintro ⟨d1, d2, rest, hs, hne1, hne2, hdig1, hdig2⟩
    cases d1 with
    | nil => exact hne1 rfl
    | cons c cs =>
      have hb : (("bad" : String)).toList = 'b' :: ['a', 'd'] := by decide
      rw [hb] at hs
      rw [List.cons_append, List.cons_append] at hs
      injection hs with h1 hrest2
      have hdigc := hdig1 c (List.mem_cons_self c cs)
      rw [← h1] at hdigc
      exact absurd hdigc (by decide)

theorem lastWrite_append_single (ws : List (OrderKey × Int × StopTime))
    (w : OrderKey × Int × StopTime) (k : OrderKey) (n : Int) :
    lastWrite (ws ++ [w]) k n =
      if w.1 = k ∧ w.2.1 = n then some w.2.2 else lastWrite ws k n := by
  unfold lastWrite
  rw [List.filter_append]
  by_cases h : w.1 = k ∧ w.2.1 = n
  · rw [if_pos h]
    rw [show List.filter (fun w => w.1 = k && w.2.1 = n) [w] = [w] by
      simp [List.filter, h.1, h.2]]
    rw [List.getLast?_concat]
    rfl
  · rw [if_neg h]
    rw [show List.filter (fun w => w.1 = k && w.2.1 = n) [w] = [] by
      have hb : (decide (w.1 = k) && decide (w.2.1 = n)) = false := by
        rw [← Bool.not_eq_true, Bool.and_eq_true, decide_eq_true_eq, decide_eq_true_eq]
        exact h
      simp [List.filter, hb]]
    rw [List.append_nil]

theorem stInv_step {ws : List (OrderKey × Int × StopTime)} {bo : List (OrderKey × Trips)}
    (row : StopTimeRow) (p : TripKeyPair) (h : StInv ws bo) :
    StInv (ws ++ [(p.live, row.plk_order, ⟨p.gtfs, row.stop_sequence, row.stop_id⟩)])
      (_load_stop_times_pair row bo p) := by
  intro k t hkt
  unfold _load_stop_times_pair at hkt
  obtain ⟨t0, ht0, hcase⟩ := mem_dmodify hkt
  obtain ⟨hnodup0, hget0⟩ := h k t0 ht0
  rcases hcase with ⟨hkey, ht⟩ | ⟨hkey, ht⟩
  · constructor
    · rw [ht]
      exact nodup_keys_dinsert _ _ _ hnodup0
    · intro n
      rw [ht]
      show dget (dinsert t0.by_order_number row.plk_order _) n = _
      rw [lastWrite_append_single]
      by_cases hn : n = row.plk_order
      · subst hn
        rw [dget_dinsert_self]
        rw [if_pos ⟨hkey.symm, rfl⟩]
      · rw [dget_dinsert_ne _ _ _ _ hn]
        rw [hget0 n]
        rw [if_neg (fun hc => hn hc.2.symm)]
  · subst ht
    refine ⟨hnodup0, fun n => ?_⟩
    rw [lastWrite_append_single]
    rw [if_neg (fun hc => hkey hc.1.symm)]
    exact hget0 n

theorem stInv_fold_pairs (row : StopTimeRow) (pairs : List TripKeyPair)
    (bo : List (OrderKey × Trips)) (ws : List (OrderKey × Int × StopTime))
    (h : StInv ws bo) :
    StInv (ws ++ pairs.map
        (fun p => (p.live, row.plk_order, (⟨p.gtfs, row.stop_sequence, row.stop_id⟩ : StopTime))))
      (pairs.foldl (_load_stop_times_pair row) bo) := by
  induction pairs generalizing bo ws with
  | nil => simpa using h
  | cons p ps ih =>
    have h1 := stInv_step row p h
    have h2 := ih _ _ h1
    rw [List.append_assoc] at h2
    exact h2

theorem stInv_rows (rows : List StopTimeRow) (tik : List (String × List TripKeyPair))
    (bo : List (OrderKey × Trips)) (ws : List (OrderKey × Int × StopTime))
    (h : StInv ws bo) :
    StInv (ws ++ stWrites rows tik) (_load_stop_times rows bo tik) := by
  induction rows generalizing bo ws with
  | nil =>
    rw [show stWrites [] tik = [] from rfl, List.append_nil]
    exact h
  | cons row rest ih =>
    have h1 := stInv_fold_pairs row ((dget tik row.trip_id).getD []) bo ws h
    have h2 := ih _ _ h1
    rw [List.append_assoc] at h2
    exact h2

theorem load_trips_pair_bon_empty {st : TripsState} (trip_id : String) (a b : Int)
    (pair : DatePair)
    (h : ∀ k t, (k, t) ∈ st.1 → t.by_order_number = []) :
    ∀ k t, (k, t) ∈ (_load_trips_pair trip_id a b st pair).1 → t.by_order_number = [] := by
  intro k t hkt
  unfold _load_trips_pair at hkt
  simp only at hkt
  cases hg : dget st.1 (⟨a, b, pair.operating_date⟩ : OrderKey) with
  | some t0 =>
    rw [hg] at hkt
    unfold dset at hkt
    obtain ⟨⟨p1, p2⟩, hp, hpe⟩ := List.mem_map.mp hkt
    have ht0 := h _ _ (dget_mem hg)
    by_cases hpk : p1 = ⟨a, b, pair.operating_date⟩
    · rw [if_pos (by simpa using hpk)] at hpe
      have h2 : { t0 with all := t0.all ++ [⟨trip_id, pair.start_date⟩] } = t :=
        congrArg Prod.snd hpe
      rw [← h2]
      exact ht0
    · rw [if_neg (by simpa using hpk)] at hpe
      have h1 : p1 = k := congrArg Prod.fst hpe
      have h2 : p2 = t := congrArg Prod.snd hpe
      subst h1; subst h2
      exact h _ _ hp
  | none =>
    rw [hg] at hkt
    rcases List.mem_append.mp hkt with hin | hsing
    · exact h k t hin
    · simp only [List.mem_singleton, Prod.mk.injEq] at hsing
      rw [hsing.2]

theorem load_trips_foldl_bon_empty (trip_id : String) (a b : Int)
    (pairs : List DatePair) (st : TripsState)
    (h : ∀ k t, (k, t) ∈ st.1 → t.by_order_number = []) :
    ∀ k t, (k, t) ∈ (pairs.foldl (_load_trips_pair trip_id a b) st).1 →
      t.by_order_number = [] := by
  induction pairs generalizing st with
  | nil => exact h
  | cons pr prs ih => exact ih _ (load_trips_pair_bon_empty trip_id a b pr h)

theorem load_trips_go_bon_empty (services : List (String × List DatePair))
    (rows : List TripRow) (st : TripsState) (res : TripsState)
    (h : ∀ k t, (k, t) ∈ st.1 → t.by_order_number = [])
    (heq : _load_trips.go services rows st = .ok res) :
    ∀ k t, (k, t) ∈ res.1 → t.by_order_number = [] := by
  induction rows generalizing st with
  | nil =>
    unfold _load_trips.go at heq
    injection heq with hh
    subst hh
    exact h
  | cons row rest ih =>
    unfold _load_trips.go at heq
    cases hx : _extract_schedule_order_ids row.trip_id with
    | none =>
      rw [hx] at heq
      exact absurd heq (by simp)
    | some v =>
      obtain ⟨a, b⟩ := v
      rw [hx] at heq
      exact ih _ (load_trips_foldl_bon_empty row.trip_id a b _ st h) heq

/-- C7: within any one `Trips` aggregate of the built index, `by_order_number`
has unique keys, and the `StopTime` stored under each operator order number
is the one written by the last stop-time row (in processing order) resolving
to that `OrderKey` and order number — last-write-wins; `_load_stop_times` is
total, so no error can be raised. -/
theorem by_order_last_write_wins (fi : FeedInfoRow) (cal : List CalendarDateRow)
    (tr : List TripRow) (st : List StopTimeRow) (sched : Schedules)
    (bo : List (OrderKey × Trips)) (tik : List (String × List TripKeyPair))
    (hload : load_from_gtfs fi cal tr st = .ok sched)
    (htr : _load_trips tr (_load_services cal (_load_feed_dates fi)) = .ok (bo, tik)) :
    ∀ k t, (k, t) ∈ sched.by_order →
      (t.by_order_number.map Prod.fst).Nodup ∧
      ∀ n, dget t.by_order_number n = lastWrite (stWrites st tik) k n := by
  obtain ⟨bo', tik', htr', hs⟩ := load_from_gtfs_ok hload
  have heq : (Except.ok (bo, tik) : Except String TripsState) = .ok (bo', tik') :=
    htr ▸ htr'
  injection heq with hh
  have h1 : bo = bo' := congrArg Prod.fst hh
  have h2 : tik = tik' := congrArg Prod.snd hh
  subst h1; subst h2
  subst hs
  have hempty : ∀ k t, (k, t) ∈ bo → t.by_order_number = [] := by
    apply load_trips_go_bon_empty (_load_services cal (_load_feed_dates fi)) tr
      ([], []) (bo, tik)
    · intro k t hkt
      exact absurd hkt (List.not_mem_nil _)
    · exact htr
  have hinv0 : StInv [] bo := by
    intro k t hkt
    rw [hempty k t hkt]
    exact ⟨List.nodup_nil, fun n => rfl⟩
  have hmain := stInv_rows st tik bo [] hinv0
  rw [List.nil_append] at hmain
  exact hmain

/-- C7 witness: two sample stop-time rows share order number 5; the stored
stop time is the second row's, and the theorem evaluates on that sample. -/
theorem by_order_last_write_wins_witness :
    (exTripsAgg.by_order_number.map Prod.fst).Nodup ∧
    ∀ n, dget exTripsAgg.by_order_number n
      = lastWrite (stWrites exStops exTik) ⟨12, 3, 13⟩ n :=
  by_order_last_write_wins exFeedInfo exCal exTrips exStops exSched exBo exTik rfl rfl
    ⟨12, 3, 13⟩ exTripsAgg (List.mem_singleton.mpr rfl)

theorem dappend_all_pairs {κ α : Type} [DecidableEq κ] {P : κ → α → Prop}
    {m : List (κ × List α)} (hm : ∀ p ∈ m, ∀ x ∈ p.2, P p.1 x)
    {k : κ} {v : α} (hv : P k v) :
    ∀ p ∈ dappend m k v, ∀ x ∈ p.2, P p.1 x := by
  rintro ⟨k', l⟩ hp x hx
  rcases mem_dappend hp with ⟨l₀, hl₀, hcase⟩ | ⟨hk, hl⟩
  · rcases hcase with rfl | ⟨rfl, rfl⟩
    · exact hm _ hl₀ x hx
    · rcases List.mem_append.mp hx with hx₀ | hxv
      · exact hm _ hl₀ x hx₀
      · rw [List.mem_singleton.mp hxv]
        exact hv
  · subst hk
    rw [hl] at hx
    rw [List.mem_singleton.mp hx]
    exact hv

theorem load_services_row_sound {range : BoundedDateRange}
    {acc : List (String × List DatePair)} {row : CalendarDateRow}
    (hacc : ∀ p ∈ acc, ∀ dp ∈ p.2,
      dp.operating_date = dp.start_date - _extract_start_date_offset p.1 ∧
      range.contains dp.operating_date = true) :
    ∀ p ∈ _load_services_row range acc row, ∀ dp ∈ p.2,
      dp.operating_date = dp.start_date - _extract_start_date_offset p.1 ∧
      range.contains dp.operating_date = true := by
  intro p hp dp hdp
  simp only [_load_services_row] at hp
  split at hp
  · rename_i hc
    exact @dappend_all_pairs String DatePair _
      (fun sid dp => dp.operating_date = dp.start_date - _extract_start_date_offset sid ∧
        range.contains dp.operating_date = true)
      acc hacc row.service_id _ ⟨(sub_eq_add_neg row.date _).symm, hc⟩ p hp dp hdp
  · exact hacc p hp dp hdp

theorem load_services_sound (rows : List CalendarDateRow) (range : BoundedDateRange) :
    ∀ sid lst, dget (_load_services rows range) sid = some lst →
    ∀ dp ∈ lst, dp.operating_date = dp.start_date - _extract_start_date_offset sid ∧
      range.contains dp.operating_date = true := by
  have hfold : ∀ (rows : List CalendarDateRow) (acc : List (String × List DatePair)),
      (∀ p ∈ acc, ∀ dp ∈ p.2,
        dp.operating_date = dp.start_date - _extract_start_date_offset p.1 ∧
        range.contains dp.operating_date = true) →
      ∀ p ∈ rows.foldl (_load_services_row range) acc, ∀ dp ∈ p.2,
        dp.operating_date = dp.start_date - _extract_start_date_offset p.1 ∧
        range.contains dp.operating_date = true := by
    intro rows
    induction rows with
    | nil => intro acc hacc; exact hacc
    | cons row rest ih => intro acc hacc; exact ih _ (load_services_row_sound hacc)
  intro sid lst hget dp hdp
  have hmem := dget_mem hget
  exact hfold rows []
    (fun p hp => absurd hp (List.not_mem_nil _)) (sid, lst) hmem dp hdp

theorem load_trips_pair_sound {range : BoundedDateRange} {tr : List TripRow}
    {st : TripsState} (trip_id : String) (a b : Int) (pair : DatePair)
    (hst : GInv range tr st.1)
    (hp : TripProp range tr ⟨a, b, pair.operating_date⟩ ⟨trip_id, pair.start_date⟩) :
    GInv range tr (_load_trips_pair trip_id a b st pair).1 := by
  intro k t hkt td htd
  unfold _load_trips_pair at hkt
  simp only at hkt
  cases hg : dget st.1 (⟨a, b, pair.operating_date⟩ : OrderKey) with
  | some t0 =>
    rw [hg] at hkt
    unfold dset at hkt
    obtain ⟨⟨p1, p2⟩, hpmem, hpe⟩ := List.mem_map.mp hkt
    by_cases hpk : p1 = (⟨a, b, pair.operating_date⟩ : OrderKey)
    · rw [if_pos (by simpa using hpk)] at hpe
      have h1 : (⟨a, b, pair.operating_date⟩ : OrderKey) = k := congrArg Prod.fst hpe
      have h2 : { t0 with all := t0.all ++ [⟨trip_id, pair.start_date⟩] } = t :=
        congrArg Prod.snd hpe
      rw [← h2] at htd
      rcases List.mem_append.mp htd with htd₀ | htdv
      · exact h1 ▸ hst _ t0 (dget_mem hg) td htd₀
      · rw [List.mem_singleton.mp htdv]
        exact h1 ▸ hp
    · rw [if_neg (by simpa using hpk)] at hpe
      have h1 : p1 = k := congrArg Prod.fst hpe
      have h2 : p2 = t := congrArg Prod.snd hpe
      subst h1; subst h2
      exact hst _ _ hpmem td htd
  | none =>
    rw [hg] at hkt
    rcases List.mem_append.mp hkt with hin | hsing
    · exact hst _ _ hin td htd
    · simp only [List.mem_singleton, Prod.mk.injEq] at hsing
      rw [hsing.2] at htd
      rw [List.mem_singleton.mp htd]
      exact hsing.1 ▸ hp

theorem load_trips_foldl_sound {range : BoundedDateRange} {tr : List TripRow}
    (trip_id : String) (a b : Int) (pairs : List DatePair) (st : TripsState)
    (hst : GInv range tr st.1)
    (hpairs : ∀ pr ∈ pairs,
      TripProp range tr ⟨a, b, pr.operating_date⟩ ⟨trip_id, pr.start_date⟩) :
    GInv range tr (pairs.foldl (_load_trips_pair trip_id a b) st).1 := by
  induction pairs generalizing st with
  | nil => exact hst
  | cons pr prs ih =>
    exact ih _
      (load_trips_pair_sound trip_id a b pr hst (hpairs pr (List.mem_cons_self pr prs)))
      (fun q hq => hpairs q (List.mem_cons_of_mem pr hq))

theorem load_trips_go_sound (range : BoundedDateRange)
    (services : List (String × List DatePair)) (tr : List TripRow)
    (hserv : ∀ sid lst, dget services sid = some lst →
      ∀ dp ∈ lst, dp.operating_date = dp.start_date - _extract_start_date_offset sid ∧
        range.contains dp.operating_date = true) :
    ∀ (rows : List TripRow) (st res : TripsState), (∀ r ∈ rows, r ∈ tr) →
      GInv range tr st.1 → _load_trips.go services rows st = .ok res →
      GInv range tr res.1 := by
  intro rows
  induction rows with
  | nil =>
    intro st res hsub hst heq
    unfold _load_trips.go at heq
    injection heq with hh
    subst hh
    exact hst
  | cons row rest ih =>
    intro st res hsub hst heq
    unfold _load_trips.go at heq
    cases hx : _extract_schedule_order_ids row.trip_id with
    | none =>
      rw [hx] at heq
      exact absurd heq (by simp)
    | some v =>
      obtain ⟨a, b⟩ := v
      rw [hx] at heq
      have hpairs : ∀ pr ∈ (dget services row.service_id).getD [],
          TripProp range tr ⟨a, b, pr.operating_date⟩ ⟨row.trip_id, pr.start_date⟩ := by
        cases hgs : dget services row.service_id with
        | none => intro pr hpr; exact absurd hpr (List.not_mem_nil _)
        | some lst =>
          intro pr hpr
          simp only [Option.getD_some] at hpr
          obtain ⟨heqd, hcont⟩ := hserv row.service_id lst hgs pr hpr
          exact ⟨hcont, row, hsub row (List.mem_cons_self row rest), rfl, heqd⟩
      exact ih _ res (fun r hr => hsub r (List.mem_cons_of_mem row hr))
        (load_trips_foldl_sound row.trip_id a b _ st hst hpairs) heq

theorem stop_times_pair_preserves_all (row : StopTimeRow)
    (bo : List (OrderKey × Trips)) (p : TripKeyPair) :
    ∀ k t', (k, t') ∈ _load_stop_times_pair row bo p →
      ∃ t, (k, t) ∈ bo ∧ t'.all = t.all := by
  intro k t' h
  unfold _load_stop_times_pair at h
  simp only at h
  obtain ⟨t, ht, hcase⟩ := mem_dmodify h
  rcases hcase with ⟨_, h2⟩ | ⟨_, h2⟩
  · exact ⟨t, ht, by rw [h2]⟩
  · exact ⟨t, ht, by rw [h2]⟩

theorem stop_times_foldl_preserves_all (row : StopTimeRow) (pairs : List TripKeyPair)
    (bo : List (OrderKey × Trips)) :
    ∀ k t', (k, t') ∈ pairs.foldl (_load_stop_times_pair row) bo →
      ∃ t, (k, t) ∈ bo ∧ t'.all = t.all := by
  induction pairs generalizing bo with
  | nil => exact fun k t' h => ⟨t', h, rfl⟩
  | cons p ps ih =>
    intro k t' h
    obtain ⟨t1, ht1, hall1⟩ := ih _ k t' h
    obtain ⟨t2, ht2, hall2⟩ := stop_times_pair_preserves_all row bo p k t1 ht1
    exact ⟨t2, ht2, hall1.trans hall2⟩

theorem load_stop_times_preserves_all (rows : List StopTimeRow)
    (bo : List (OrderKey × Trips)) (tik : List (String × List TripKeyPair)) :
    ∀ k t', (k, t') ∈ _load_stop_times rows bo tik →
      ∃ t, (k, t) ∈ bo ∧ t'.all = t.all := by
  induction rows generalizing bo with
  | nil => exact fun k t' h => ⟨t', h, rfl⟩
  | cons row rest ih =>
    intro k t' h
    obtain ⟨t1, ht1, hall1⟩ := ih _ k t' h
    obtain ⟨t2, ht2, hall2⟩ :=
      stop_times_foldl_preserves_all row ((dget tik row.trip_id).getD []) bo k t1 ht1
    exact ⟨t2, ht2, hall1.trans hall2⟩

/-- C1: for every `OrderKey` stored by the index build and every `TripDate`
in that key's `Trips.all` list, the stored operating date lies inside
`valid_operating_dates` and equals `start_date - shift`, where `shift` is the
day shift extracted from the service identifier of a trips-table row carrying
that trip identifier. -/
theorem index_operating_date_invariant (fi : FeedInfoRow) (cal : List CalendarDateRow)
    (tr : List TripRow) (st : List StopTimeRow) (sched : Schedules)
    (h : load_from_gtfs fi cal tr st = .ok sched) :
    ∀ k t, (k, t) ∈ sched.by_order → ∀ td ∈ t.all,
      sched.valid_operating_dates.contains k.operating_date = true ∧
      ∃ row ∈ tr, row.trip_id = td.trip_id ∧
        k.operating_date = td.start_date - _extract_start_date_offset row.service_id := by
  obtain ⟨bo, tik, htr, hs⟩ := load_from_gtfs_ok h
  subst hs
  intro k t hkt td htd
  obtain ⟨t0, ht0, hall⟩ := load_stop_times_preserves_all st bo tik k t hkt
  rw [hall] at htd
  have hginv : GInv (_load_feed_dates fi) tr bo :=
    load_trips_go_sound (_load_feed_dates fi) (_load_services cal (_load_feed_dates fi)) tr
      (load_services_sound cal (_load_feed_dates fi)) tr ([], []) (bo, tik)
      (fun r hr => hr)
      (fun k' t' h' => absurd h' (List.not_mem_nil _))
      htr
  exact hginv k t0 ht0 td htd

/-- C1 witness: the theorem applied to the sample archive — service `S-1D`
active on static day 12 yields operating date 13 inside the range 9..20. -/
theorem index_operating_date_invariant_witness :
    exSched.valid_operating_dates.contains (⟨12, 3, 13⟩ : OrderKey).operating_date = true ∧
    ∃ row ∈ exTrips, row.trip_id = (⟨"12_3", 12⟩ : TripDate).trip_id ∧
      (⟨12, 3, 13⟩ : OrderKey).operating_date
        = (⟨"12_3", 12⟩ : TripDate).start_date - _extract_start_date_offset row.service_id :=
  index_operating_date_invariant exFeedInfo exCal exTrips exStops exSched rfl
    ⟨12, 3, 13⟩ exTripsAgg (List.mem_singleton.mpr rfl) ⟨"12_3", 12⟩
    (List.mem_singleton.mpr rfl)

end PolishTrainsGTFS
